import Mathlib

/-!
Shallow embedding of the fast hash table in `src/fast-ht.c`.

The table stores (64-bit hash, opaque value) pairs.  Buckets hold a singly
linked chain of fixed-capacity "bags" of nodes; hash value 0 is the
empty/deleted sentinel.  Machine 64-bit arithmetic is modelled on `Nat`
with explicit reduction modulo `2^64` where C overflow matters.  The
opaque `void*` value is modelled as a `Nat`.  The random salt produced by
`arc4random_buf` is an explicit parameter of the operations that draw it
(`ht_init`, and `ht_probe`, which passes it on to `resize`).
-/

namespace FastHT

/-- The constant `2^64`, the modulus of C `uint64_t` arithmetic. -/
def U64 : Nat := 2 ^ 64

/-- Modelled from the spec: `BAG_SIZE` (`FASTHT_BAGSZ`), the fixed slot
count per bag, default 8.  The constant lives in the header
`utils/fast-ht.h`, which is not among the sources; the spec fixes it to 8. -/
def FASTHT_BAGSZ : Nat := 8

/-- Modelled from the spec: `FILL_PERCENT` (`FILLPCT`), the resize trigger
threshold, default 50.  The constant lives in the header
`utils/fast-ht.h`, which is not among the sources; the spec fixes it to 50. -/
def FILLPCT : Nat := 50

/-- A node `hn`: a (hash, value) pair.  Hash 0 is the sentinel for an
empty or deleted slot (header struct, layout fixed by its use in
`fast-ht.c` and the spec's data model). -/
structure hn where
  h : Nat
  v : Nat
deriving Repr, DecidableEq

/-- The zero node `{ .h = 0, .v = 0 }`: a freshly zero-allocated slot,
also written over a removed slot (`zn` in `____findx`). -/
def zn : hn := ⟨0, 0⟩

/-- A bag: a fixed array of `FASTHT_BAGSZ` nodes, modelled as a list of
that length (all bags ever built have exactly `FASTHT_BAGSZ` slots). -/
abbrev bag := List hn

/-- A freshly allocated, zeroed bag (`NEWZ(bag)`). -/
def newBag : bag := List.replicate FASTHT_BAGSZ zn

/-- A bucket `hb`: the head of the bag chain (head of the `SL` list
first), the live-node counter `n` and the bag counter `bags` (header
struct, layout fixed by its use in `fast-ht.c` and the spec's data
model). -/
structure hb where
  head : List bag
  n    : Nat
  bags : Nat
deriving Repr, DecidableEq

/-- A zeroed bucket, as produced by `NEWZA(hb, n)`. -/
def hb0 : hb := ⟨[], 0, 0⟩

/-- The table `ht`: bucket array `b`, bucket count `n`, salt `rand`,
total node count `nodes`, fill counter `fill`, resize counter `splits`
and the high-water stats `bagmax`, `maxn` (header struct, layout fixed
by its use in `fast-ht.c` and the spec's data model). -/
structure ht where
  b      : List hb
  n      : Nat
  rand   : Nat
  nodes  : Nat
  fill   : Nat
  splits : Nat
  bagmax : Nat
  maxn   : Nat
deriving Repr, DecidableEq

/-- The compression function `mix(h)` from fasthash:
`h ^= h >> 23; h *= 0x2127599bf4325c37ULL; h ^= h >> 47`. -/
def mix (h : Nat) : Nat :=
  let h1 := h ^^^ (h >>> 23)
  let h2 := (h1 * 0x2127599bf4325c37) % U64
  h2 ^^^ (h2 >>> 47)

/-- Source `__hash(hv, n, salt)`: one round of fasthash64 on one word, XORed
with the salt and masked with `n - 1` to produce a bucket index. -/
def __hash (hv n salt : Nat) : Nat :=
  let m := 0x880355f21e6d1965
  let h0 := (8 * m) % U64
  let h1 := h0 ^^^ mix hv
  let h2 := (h1 * m) % U64
  let r  := mix h2 ^^^ salt
  r &&& (n - 1)

/-- Does some slot of the chain hold hash `hv`?  This is the duplicate
scan of `__insert` (the `x->h == p->h` arm of `FIND`). -/
def chainHasHash (c : List bag) (hv : Nat) : Bool :=
  c.any (fun g => g.any (fun x => x.h == hv))

/-- Write `p` over the first slot of the bag whose hash is 0; `none` if
the bag has no empty slot. -/
def putFirstEmptyBag (g : bag) (p : hn) : Option bag :=
  match g with
  | [] => none
  | x :: xs =>
      if x.h == 0 then some (p :: xs)
      else (putFirstEmptyBag xs p).map (fun ys => x :: ys)

/-- Write `p` over the first empty slot of the chain, scanning bags from
the head of the chain and slots in order — the `pos` selection shared by
`FIND` in `__insert` and `PUT` in `__insert_quick`; `none` if every slot
of every bag is occupied. -/
def putFirstEmpty (c : List bag) (p : hn) : Option (List bag) :=
  match c with
  | [] => none
  | g :: gs =>
      match putFirstEmptyBag g p with
      | some g2 => some (g2 :: gs)
      | none    => (putFirstEmpty gs p).map (fun gs2 => g :: gs2)

/-- Source `__insert(b, p)`: scan the whole chain for a node with hash `p.h`
(returning `true` = C `1` if found, leaving the bucket untouched);
otherwise store `p` in the first empty slot, prepending a fresh bag when
no empty slot exists, and bump the bucket's node counter. -/
def __insert (b : hb) (p : hn) : Bool × hb :=
  if chainHasHash b.head p.h then (true, b)
  else
    match putFirstEmpty b.head p with
    | some c => (false, { b with head := c, n := b.n + 1 })
    | none   =>
        (false, { b with head := (p :: List.replicate (FASTHT_BAGSZ - 1) zn) :: b.head,
                         bags := b.bags + 1,
                         n := b.n + 1 })

/-- Source `__insert_quick(b, p)`: store `p` in the first empty slot (prepending
a fresh bag when none exists) with no duplicate scan, and bump the
bucket's node counter. -/
def __insert_quick (b : hb) (p : hn) : hb :=
  match putFirstEmpty b.head p with
  | some c => { b with head := c, n := b.n + 1 }
  | none   => { b with head := (p :: List.replicate (FASTHT_BAGSZ - 1) zn) :: b.head,
                       bags := b.bags + 1,
                       n := b.n + 1 }

/-- The scan of `____findx`: the first slot of the chain (bags from the
head, slots in order) whose hash equals `hv`. -/
def findSlot (c : List bag) (hv : Nat) : Option hn :=
  c.flatten.find? (fun x => x.h == hv)

/-- Zero the slot the scan of `____findx` stops at: the first slot of the
chain whose hash equals `hv` is overwritten with `zn`; a chain without a
match is returned unchanged. -/
def clearBag (g : bag) (hv : Nat) : bag × Bool :=
  match g with
  | [] => ([], false)
  | x :: xs =>
      if x.h == hv then (zn :: xs, true)
      else
        let (ys, found) := clearBag xs hv
        (x :: ys, found)

/-- Chain-level version of `clearBag`: zero the first matching slot. -/
def clearChain (c : List bag) (hv : Nat) : List bag :=
  match c with
  | [] => []
  | g :: gs =>
      let (g2, found) := clearBag g hv
      if found then g2 :: gs else g :: clearChain gs hv

/-- Source `____findx(h, hv, p_ret, zero)`: locate the bucket with `__hash`, scan
its chain for `hv`; if found return the value (and, when `zero` is set,
overwrite the slot with `zn`); otherwise report not-found.  The returned
pair is (C return through `p_ret`/return code, table after the call). -/
def __findx (t : ht) (hv : Nat) (zero : Bool) : Option Nat × ht :=
  let i := __hash hv t.n t.rand
  let b := t.b.getD i hb0
  match findSlot b.head hv with
  | none => (none, t)
  | some x =>
      if zero then
        (some x.v, { t with b := t.b.set i { b with head := clearChain b.head hv } })
      else
        (some x.v, t)

/-- Source `ht_find(h, hv, p_ret)`. -/
def ht_find (t : ht) (hv : Nat) : Option Nat × ht :=
  __findx t hv false

/-- Source `ht_remove(h, hv, p_ret)`. -/
def ht_remove (t : ht) (hv : Nat) : Option Nat × ht :=
  __findx t hv true

/-- One redistribution step of `resize`: skip sentinel slots; hash a live
node under the new length and salt, `__insert_quick` it into its new
bucket and update the running `maxbags`/`maxn`/`fill` stats. -/
def redistOne (nn salt : Nat) (st : List hb × Nat × Nat × Nat) (p : hn) :
    List hb × Nat × Nat × Nat :=
  if p.h = 0 then st
  else
    let (bs, maxbags, maxn, fill) := st
    let j := __hash p.h nn salt
    let x := __insert_quick (bs.getD j hb0) p
    (bs.set j x,
     max maxbags x.bags,
     max maxn x.n,
     if x.n = 1 then fill + 1 else fill)

/-- All slots of the table in redistribution order: buckets in array
order, bags from the head of each chain, slots in order. -/
def allSlots (t : ht) : List hn :=
  (t.b.map (fun b => b.head.flatten)).flatten

/-- Source `resize(h)`: double the bucket count, draw a fresh salt (here an
explicit argument), redistribute every live node into a zeroed new
bucket array with `__insert_quick`, and install the new array, length,
salt and recomputed stats.  `nodes` and `splits` are untouched. -/
def resize (t : ht) (salt : Nat) : ht :=
  let nn := t.n * 2
  let (bs, maxbags, maxn, fill) :=
    (allSlots t).foldl (redistOne nn salt) (List.replicate nn hb0, 0, 0, 0)
  { b := bs, n := nn, rand := salt, nodes := t.nodes, fill := fill,
    splits := t.splits, bagmax := maxbags, maxn := maxn }

/-- Source `ht_init(h, nlog2)`: 0 defaults to 10; `n = 1 << nlog2` zeroed
buckets and a fresh random salt (explicit argument). -/
def ht_init (nlog2 : Nat) (salt : Nat) : ht :=
  let k := if nlog2 = 0 then 10 else nlog2
  { b := List.replicate (1 <<< k) hb0, n := 1 <<< k, rand := salt,
    nodes := 0, fill := 0, splits := 0, bagmax := 0, maxn := 0 }

/-- Source `ht_probe(h, hv, v)`: insert `(hv, v)` if `hv` is not already in its
bucket.  Returns `true` (C `1`) and the unchanged table on a duplicate;
otherwise stores the node, bumps `nodes`, maintains `fill`, triggers
`resize` when the fill ratio crosses `FILLPCT`, and updates the
high-water stats from the (possibly resized) target bucket.  `nsalt` is
the salt `resize` would draw. -/
def ht_probe (t : ht) (hv v : Nat) (nsalt : Nat) : Bool × ht :=
  let i := __hash hv t.n t.rand
  let b0 := t.b.getD i hb0
  match __insert b0 ⟨hv, v⟩ with
  | (true, _) => (true, t)
  | (false, b1) =>
      let t1 := { t with b := t.b.set i b1, nodes := t.nodes + 1 }
      let (t2, b2) :=
        if b1.n = 1 then
          let ta := { t1 with fill := t1.fill + 1 }
          if ta.fill * 100 / (1 + ta.n) > FILLPCT then
            let tb := { ta with splits := ta.splits + 1 }
            let tc := resize tb nsalt
            (tc, tc.b.getD (__hash hv tc.n tc.rand) hb0)
          else (ta, b1)
        else (t1, b1)
      (false, { t2 with bagmax := max t2.bagmax b2.bags, maxn := max t2.maxn b2.n })

/-- A public mutating call against the table.  `probe` carries the salt
the resize engine would draw if this insert triggers one. -/
inductive Op where
  | probe (hv v nsalt : Nat)
  | find (hv : Nat)
  | remove (hv : Nat)
deriving Repr, DecidableEq

/-- The table after one public call. -/
def applyOp (t : ht) : Op → ht
  | .probe hv v nsalt => (ht_probe t hv v nsalt).2
  | .find hv => (ht_find t hv).2
  | .remove hv => (ht_remove t hv).2

/-- The table after a sequence of public calls. -/
def runOps (t : ht) (ops : List Op) : ht :=
  ops.foldl applyOp t

/-- Does a call respect the one API precondition (`probe` is never handed
the sentinel hash 0; `find`/`remove` may be called on any hash)? -/
def validOp : Op → Bool
  | .probe hv _ _ => hv != 0
  | _ => true

/-- A call sequence that respects the API precondition. -/
abbrev ValidOps (ops : List Op) : Prop :=
  ∀ op ∈ ops, validOp op = true

/-- The live nodes of one bucket: its slots in scan order with the
sentinel slots dropped. -/
def bucketLive (b : hb) : List hn :=
  b.head.flatten.filter (fun x => x.h != 0)

/-- The live nodes of the table, bucket by bucket. -/
def liveList (t : ht) : List hn :=
  (t.b.map bucketLive).flatten

/-- Number of probe calls in `ops`, run from `t`, that insert a fresh
node (C return 0, the spec's `Inserted`). -/
def countInserted (t : ht) : List Op → Nat
  | [] => 0
  | op :: rest =>
      (match op with
       | .probe hv v ns => if (ht_probe t hv v ns).1 then 0 else 1
       | _ => 0) + countInserted (applyOp t op) rest

/-- Flat-list mirror of the slot-clearing of `____findx` (`zero` set): the
first node whose hash is `hv` is overwritten with the sentinel `zn`. -/
def zeroFirst : List hn → Nat → List hn
  | [], _ => []
  | x :: xs, hv => if x.h == hv then zn :: xs else x :: zeroFirst xs hv

/-- A (hash, value, resize-salt) triple as a probe call. -/
def probeOps (ps : List (Nat × Nat × Nat)) : List Op :=
  ps.map (fun p => Op.probe p.1 p.2.1 p.2.2)

/-- The nodes a list of probe triples stores. -/
def psNodes (ps : List (Nat × Nat × Nat)) : List hn :=
  ps.map (fun p => ⟨p.1, p.2.1⟩)

/-- The live nodes of a flat slot list: sentinel slots dropped. -/
def liveF (l : List hn) : List hn :=
  l.filter (fun x => x.h != 0)

/-- Structural well-formedness: the bucket array has length `n`, and `n`
is a power of two. -/
def StructWF (t : ht) : Prop :=
  t.b.length = t.n ∧ ∃ k, t.n = 2 ^ k

/-- The coupling invariant between a table and the association list `m`
of its live (hash, value) pairs: the bucket array is well formed, every
live slot sits in the bucket its hash selects, the live nodes are a
permutation of `m`, and no hash occurs twice in `m`. -/
structure Inv (t : ht) (m : List hn) : Prop where
  len    : t.b.length = t.n
  pow    : ∃ k, t.n = 2 ^ k
  place  : ∀ i, (hi : i < t.b.length) → ∀ x ∈ t.b[i].head.flatten,
             x.h ≠ 0 → __hash x.h t.n t.rand = i
  perm   : (liveList t).Perm m
  nodup  : (m.map hn.h).Nodup

/-- Six probes from `init(2)` with both salts fixed to 0: hashes 10, 11,
15 collide in one bucket, 2 and 4 in a second, and 1 lands in a third,
driving `fill` to 3 and the fill ratio to 60 % > 50 %, so the sixth probe
triggers a resize to 8 buckets. -/
def ops6 : List Op :=
  [.probe 10 1 0, .probe 11 2 0, .probe 15 3 0,
   .probe 2 4 0, .probe 4 5 0, .probe 1 6 0]

/-- Probe triples matching `ops6`. -/
def ps6 : List (Nat × Nat × Nat) :=
  [(10, 1, 0), (11, 2, 0), (15, 3, 0), (2, 4, 0), (4, 5, 0), (1, 6, 0)]

/-- The table after `ops6`: 8 buckets, `fill = 5`, `splits = 1`, whose
fill ratio 5·100/9 = 55 still exceeds `FILLPCT`. -/
def tD : ht := runOps (ht_init 2 0) ops6

/-- A table holding exactly one node, hash 10, in the bucket that hash 0
also selects (under `init(2)` with salt 0). -/
def t9 : ht := runOps (ht_init 2 0) [.probe 10 5 0]

/-- Proof scaffolding: the bucket `ht_probe` has just stored a fresh node
into (`b1` in the C code, after `__insert` wrote the node). -/
def probeBucket1 (t : ht) (hv v : Nat) : hb :=
  __insert_quick (t.b.getD (__hash hv t.n t.rand) hb0) ⟨hv, v⟩

/-- Proof scaffolding: the table right after a fresh `__insert` succeeded
and `nodes` was bumped, before the fill/split logic runs. -/
def probeT1 (t : ht) (hv v : Nat) : ht :=
  { t with b := t.b.set (__hash hv t.n t.rand) (probeBucket1 t hv v),
           nodes := t.nodes + 1 }

/-- Proof scaffolding: the fill/split step of `ht_probe` — bump `fill`
when the bucket counter just became 1 and run `resize` when the fill
ratio crosses `FILLPCT`; returns the table and the (possibly relocated)
target bucket used for the final stats update. -/
def probeStep2 (t1 : ht) (b1 : hb) (hv ns : Nat) : ht × hb :=
  if b1.n = 1 then
    if (t1.fill + 1) * 100 / (1 + t1.n) > FILLPCT then
      let tc := resize { t1 with fill := t1.fill + 1, splits := t1.splits + 1 } ns
      (tc, tc.b.getD (__hash hv tc.n tc.rand) hb0)
    else ({ t1 with fill := t1.fill + 1 }, b1)
  else (t1, b1)

/-- Proof scaffolding: the final high-water stats update of `ht_probe`. -/
def probeFinish (p : ht × hb) : ht :=
  { p.1 with bagmax := max p.1.bagmax p.2.bags, maxn := max p.1.maxn p.2.n }

/-! ### Basic lemmas -/

theorem __hash_lt (hv n salt : Nat) (hpos : 0 < n) : __hash hv n salt < n := by
  have h1 : __hash hv n salt ≤ n - 1 := by
    unfold __hash
    exact Nat.and_le_right
  omega

theorem find?_eq_some_of_unique {α : Type} (p : α → Bool) (x : α) :
    ∀ (l : List α), x ∈ l → p x = true → (∀ y ∈ l, p y = true → y = x) →
      l.find? p = some x := by
  intro l
  induction l with
  | nil => intro h; cases h
  | cons a as ih =>
      intro hmem hpx huniq
      by_cases hpa : p a = true
      · have hax : a = x := huniq a (List.mem_cons_self a as) hpa
        subst hax
        simp [List.find?_cons, hpa]
      · have hxas : x ∈ as := by
          rcases List.mem_cons.mp hmem with h | h
          · exact absurd (h ▸ hpx) hpa
          · exact h
        have : as.find? p = some x :=
          ih hxas hpx (fun y hy hpy => huniq y (List.mem_cons_of_mem a hy) hpy)
        simp [List.find?_cons, hpa, this]

theorem chainHasHash_iff (c : List bag) (hv : Nat) :
    chainHasHash c hv = true ↔ ∃ x ∈ c.flatten, x.h = hv := by
  simp [chainHasHash, List.any_eq_true, List.mem_flatten]
  constructor
  · rintro ⟨g, hg, x, hx, he⟩; exact ⟨x, ⟨g, hg, hx⟩, he⟩
  · rintro ⟨x, ⟨g, hg, hx⟩, he⟩; exact ⟨g, hg, x, hx, he⟩

theorem findSlot_eq_none (c : List bag) (hv : Nat)
    (h : ∀ x ∈ c.flatten, x.h ≠ hv) : findSlot c hv = none := by
  apply List.find?_eq_none.mpr
  intro x hx
  simp [h x hx]

theorem findSlot_unique (c : List bag) (hv : Nat) (x : hn)
    (hmem : x ∈ c.flatten) (hx : x.h = hv)
    (huniq : ∀ y ∈ c.flatten, y.h = hv → y = x) :
    findSlot c hv = some x := by
  apply find?_eq_some_of_unique _ _ _ hmem (by simp [hx])
  intro y hy hpy
  exact huniq y hy (by simpa using hpy)

theorem findSlot_some (c : List bag) (hv : Nat) (x : hn)
    (h : findSlot c hv = some x) : x ∈ c.flatten ∧ x.h = hv := by
  refine ⟨List.mem_of_find?_eq_some h, ?_⟩
  have := List.find?_some h
  simpa using this

/-! ### Slot-writing lemmas: `putFirstEmpty`, `__insert_quick`, `zeroFirst` -/

theorem bucketLive_eq (b : hb) : bucketLive b = liveF b.head.flatten := rfl

theorem liveF_cons_live (x : hn) (l : List hn) (hx : x.h ≠ 0) :
    liveF (x :: l) = x :: liveF l := by
  simp [liveF, List.filter_cons, hx]

theorem liveF_cons_dead (x : hn) (l : List hn) (hx : x.h = 0) :
    liveF (x :: l) = liveF l := by
  simp [liveF, List.filter_cons, hx]

theorem liveF_append (l1 l2 : List hn) :
    liveF (l1 ++ l2) = liveF l1 ++ liveF l2 := by
  simp [liveF, List.filter_append]

theorem liveF_replicate_zn (k : Nat) : liveF (List.replicate k zn) = [] := by
  induction k with
  | zero => rfl
  | succ k ih => simpa [List.replicate_succ, liveF_cons_dead zn _ rfl] using ih

theorem mem_liveF {x : hn} {l : List hn} : x ∈ liveF l ↔ x ∈ l ∧ x.h ≠ 0 := by
  simp [liveF, List.mem_filter]

theorem putFirstEmptyBag_mem (g : bag) (p : hn) (g2 : bag)
    (h : putFirstEmptyBag g p = some g2) : ∀ y ∈ g2, y = p ∨ y ∈ g := by
  induction g generalizing g2 with
  | nil => simp [putFirstEmptyBag] at h
  | cons x xs ih =>
      by_cases hx : x.h == 0
      · simp [putFirstEmptyBag, hx] at h
        subst h
        intro y hy
        rcases List.mem_cons.mp hy with h | h
        · exact Or.inl h
        · exact Or.inr (List.mem_cons_of_mem x h)
      · simp [putFirstEmptyBag, hx] at h
        rcases h with ⟨ys, hys, rfl⟩
        intro y hy
        rcases List.mem_cons.mp hy with h | h
        · exact Or.inr (h ▸ List.mem_cons_self x xs)
        · rcases ih ys hys y h with h' | h'
          · exact Or.inl h'
          · exact Or.inr (List.mem_cons_of_mem x h')

theorem putFirstEmptyBag_liveF (g : bag) (p : hn) (g2 : bag)
    (h : putFirstEmptyBag g p = some g2) (hp : p.h ≠ 0) :
    (liveF g2).Perm (p :: liveF g) := by
  induction g generalizing g2 with
  | nil => simp [putFirstEmptyBag] at h
  | cons x xs ih =>
      by_cases hx : x.h == 0
      · simp [putFirstEmptyBag, hx] at h
        subst h
        have hx' : x.h = 0 := by simpa using hx
        rw [liveF_cons_live p xs hp, liveF_cons_dead x xs hx']
      · simp [putFirstEmptyBag, hx] at h
        rcases h with ⟨ys, hys, rfl⟩
        have hx' : x.h ≠ 0 := by simpa using hx
        rw [liveF_cons_live x ys hx', liveF_cons_live x xs hx']
        exact ((ih ys hys).cons x).trans (List.Perm.swap p x _)

theorem putFirstEmpty_mem (c : List bag) (p : hn) (c2 : List bag)
    (h : putFirstEmpty c p = some c2) : ∀ y ∈ c2.flatten, y = p ∨ y ∈ c.flatten := by
  induction c generalizing c2 with
  | nil => simp [putFirstEmpty] at h
  | cons g gs ih =>
      cases hg : putFirstEmptyBag g p with
      | some g2 =>
          simp [putFirstEmpty, hg] at h
          subst h
          intro y hy
          simp only [List.flatten_cons, List.mem_append] at hy ⊢
          rcases hy with h | h
          · rcases putFirstEmptyBag_mem g p g2 hg y h with h' | h'
            · exact Or.inl h'
            · exact Or.inr (Or.inl h')
          · exact Or.inr (Or.inr h)
      | none =>
          simp [putFirstEmpty, hg] at h
          rcases h with ⟨gs2, hgs2, rfl⟩
          intro y hy
          simp only [List.flatten_cons, List.mem_append] at hy ⊢
          rcases hy with h | h
          · exact Or.inr (Or.inl h)
          · rcases ih gs2 hgs2 y h with h' | h'
            · exact Or.inl h'
            · exact Or.inr (Or.inr h')

theorem putFirstEmpty_liveF (c : List bag) (p : hn) (c2 : List bag)
    (h : putFirstEmpty c p = some c2) (hp : p.h ≠ 0) :
    (liveF c2.flatten).Perm (p :: liveF c.flatten) := by
  induction c generalizing c2 with
  | nil => simp [putFirstEmpty] at h
  | cons g gs ih =>
      cases hg : putFirstEmptyBag g p with
      | some g2 =>
          simp [putFirstEmpty, hg] at h
          subst h
          simp only [List.flatten_cons, liveF_append]
          exact List.Perm.append_right (liveF gs.flatten)
            (putFirstEmptyBag_liveF g p g2 hg hp)
      | none =>
          simp [putFirstEmpty, hg] at h
          rcases h with ⟨gs2, hgs2, rfl⟩
          simp only [List.flatten_cons, liveF_append]
          exact (List.Perm.append_left (liveF g) (ih gs2 hgs2)).trans List.perm_middle

/-! ### `__insert_quick` and `__insert` -/

theorem __insert_quick_n (b : hb) (p : hn) : (__insert_quick b p).n = b.n + 1 := by
  unfold __insert_quick
  cases h : putFirstEmpty b.head p <;> simp

theorem __insert_quick_bags_le (b : hb) (p : hn) : b.bags ≤ (__insert_quick b p).bags := by
  unfold __insert_quick
  cases h : putFirstEmpty b.head p <;> simp

theorem __insert_quick_mem (b : hb) (p : hn) :
    ∀ y ∈ (__insert_quick b p).head.flatten, y = p ∨ y = zn ∨ y ∈ b.head.flatten := by
  unfold __insert_quick
  cases h : putFirstEmpty b.head p with
  | some c =>
      intro y hy
      simp only at hy
      rcases putFirstEmpty_mem b.head p c h y hy with h' | h'
      · exact Or.inl h'
      · exact Or.inr (Or.inr h')
  | none =>
      intro y hy
      simp only [List.flatten_cons, List.mem_append, List.mem_cons] at hy
      rcases hy with (h' | h') | h'
      · exact Or.inl h'
      · exact Or.inr (Or.inl (List.eq_of_mem_replicate h'))
      · exact Or.inr (Or.inr h')

theorem __insert_quick_liveF (b : hb) (p : hn) (hp : p.h ≠ 0) :
    (bucketLive (__insert_quick b p)).Perm (p :: bucketLive b) := by
  rw [bucketLive_eq, bucketLive_eq]
  unfold __insert_quick
  cases h : putFirstEmpty b.head p with
  | some c =>
      simpa using putFirstEmpty_liveF b.head p c h hp
  | none =>
      simp only [List.flatten_cons, liveF_append, liveF_cons_live p _ hp,
        liveF_replicate_zn]
      rfl

theorem __insert_eq (b : hb) (p : hn) :
    __insert b p =
      if chainHasHash b.head p.h then (true, b) else (false, __insert_quick b p) := by
  unfold __insert __insert_quick
  by_cases h : chainHasHash b.head p.h
  · simp [h]
  · simp only [h, if_false]
    cases hp : putFirstEmpty b.head p <;> simp

/-! ### `zeroFirst`, `clearBag`, `clearChain` -/

theorem zeroFirst_of_not_mem (l : List hn) (hv : Nat)
    (h : ∀ x ∈ l, x.h ≠ hv) : zeroFirst l hv = l := by
  induction l with
  | nil => rfl
  | cons x xs ih =>
      have hx : (x.h == hv) = false := by
        simpa using h x (List.mem_cons_self x xs)
      simp [zeroFirst, hx]
      exact ih (fun y hy => h y (List.mem_cons_of_mem x hy))

theorem zeroFirst_mem (l : List hn) (hv : Nat) :
    ∀ y ∈ zeroFirst l hv, y = zn ∨ y ∈ l := by
  induction l with
  | nil => simp [zeroFirst]
  | cons x xs ih =>
      by_cases hx : (x.h == hv) = true
      · simp only [zeroFirst, hx, if_true]
        intro y hy
        rcases List.mem_cons.mp hy with h | h
        · exact Or.inl h
        · exact Or.inr (List.mem_cons_of_mem x h)
      · simp only [zeroFirst, hx, if_false]
        intro y hy
        rcases List.mem_cons.mp hy with h | h
        · exact Or.inr (h ▸ List.mem_cons_self x xs)
        · rcases ih y h with h' | h'
          · exact Or.inl h'
          · exact Or.inr (List.mem_cons_of_mem x h')

theorem zeroFirst_zero_liveF (l : List hn) : liveF (zeroFirst l 0) = liveF l := by
  induction l with
  | nil => rfl
  | cons x xs ih =>
      by_cases hx : x.h = 0
      · simp only [zeroFirst, hx]
        simp only [if_true, beq_self_eq_true]
        rw [liveF_cons_dead zn _ rfl, liveF_cons_dead x _ hx]
      · have hx' : (x.h == 0) = false := by simpa using hx
        simp only [zeroFirst, hx', Bool.false_eq_true, if_false]
        rw [liveF_cons_live x _ hx, liveF_cons_live x _ hx, ih]

theorem zeroFirst_liveF_erase (l : List hn) (x : hn) (hv : Nat)
    (hxh : x.h = hv) (hv0 : hv ≠ 0)
    (huniq : ∀ y ∈ l, y.h = hv → y = x) :
    liveF (zeroFirst l hv) = (liveF l).erase x := by
  induction l with
  | nil => rfl
  | cons a as ih =>
      by_cases ha : (a.h == hv) = true
      · have hax : a = x := huniq a (List.mem_cons_self a as) (by simpa using ha)
        subst hax
        simp only [zeroFirst, ha, if_true]
        rw [liveF_cons_dead zn _ rfl, liveF_cons_live a _ (hxh ▸ hv0)]
        rw [List.erase_cons_head]
      · have ha' : a.h ≠ hv := by simpa using ha
        have ha'' : (a.h == hv) = false := by simpa using ha'
        simp only [zeroFirst, ha'', Bool.false_eq_true, if_false]
        have hax : a ≠ x := fun he => ha' (he ▸ hxh)
        have ih' := ih (fun y hy hyh => huniq y (List.mem_cons_of_mem a hy) hyh)
        by_cases haz : a.h = 0
        · rw [liveF_cons_dead a _ haz, liveF_cons_dead a _ haz, ih']
        · rw [liveF_cons_live a _ haz, liveF_cons_live a _ haz, ih',
            List.erase_cons_tail]
          simp [hax]

theorem clearBag_spec (g : bag) (hv : Nat) :
    clearBag g hv = (zeroFirst g hv, g.any (fun x => x.h == hv)) := by
  induction g with
  | nil => rfl
  | cons x xs ih =>
      by_cases hx : (x.h == hv) = true
      · simp [clearBag, zeroFirst, hx]
      · simp [clearBag, zeroFirst, hx, ih]

theorem zeroFirst_append (l1 l2 : List hn) (hv : Nat) :
    zeroFirst (l1 ++ l2) hv =
      if l1.any (fun x => x.h == hv) then zeroFirst l1 hv ++ l2
      else l1 ++ zeroFirst l2 hv := by
  induction l1 with
  | nil => simp [zeroFirst]
  | cons x xs ih =>
      by_cases hx : (x.h == hv) = true
      · simp [zeroFirst, hx]
      · have hx' : (x.h == hv) = false := by simpa using hx
        simp only [List.cons_append, zeroFirst, hx', Bool.false_eq_true, if_false,
          List.any_cons, Bool.false_or, List.append_eq]
        by_cases hxs : xs.any (fun x => x.h == hv) = true
        · rw [ih, if_pos hxs, if_pos hxs]
        · rw [ih, if_neg hxs, if_neg hxs]

theorem clearChain_flatten (c : List bag) (hv : Nat) :
    (clearChain c hv).flatten = zeroFirst c.flatten hv := by
  induction c with
  | nil => rfl
  | cons g gs ih =>
      simp only [clearChain, clearBag_spec]
      by_cases hg : g.any (fun x => x.h == hv) = true
      · simp only [hg, if_true, List.flatten_cons, zeroFirst_append, hg]
      · have hg' : (g.any fun x => x.h == hv) = false := by simpa using hg
        simp only [hg', Bool.false_eq_true, if_false, List.flatten_cons,
          zeroFirst_append, ih]

/-! ### Decomposing the bucket array -/

theorem flatten_map_decomp {α β : Type} (f : α → List β) (l : List α) (i : Nat)
    (hi : i < l.length) :
    (l.map f).flatten =
      ((l.take i).map f).flatten ++ f l[i] ++ ((l.drop (i + 1)).map f).flatten := by
  have h1 : l = l.take i ++ l[i] :: l.drop (i + 1) := by
    rw [← List.drop_eq_getElem_cons hi, List.take_append_drop]
  calc (l.map f).flatten
      = ((l.take i ++ l[i] :: l.drop (i + 1)).map f).flatten := by rw [← h1]
    _ = ((l.take i).map f).flatten ++ f l[i] ++ ((l.drop (i + 1)).map f).flatten := by
        simp only [List.map_append, List.map_cons, List.flatten_append,
          List.flatten_cons, List.append_assoc]

theorem flatten_map_set {α β : Type} (f : α → List β) (l : List α) (i : Nat)
    (hi : i < l.length) (a : α) :
    ((l.set i a).map f).flatten =
      ((l.take i).map f).flatten ++ f a ++ ((l.drop (i + 1)).map f).flatten := by
  rw [List.set_eq_take_append_cons_drop, if_pos hi]
  simp [List.map_append, List.flatten_append]

theorem slot_mem_liveList (t : ht) (i : Nat) (hi : i < t.b.length) (y : hn)
    (hy : y ∈ t.b[i].head.flatten) (hyh : y.h ≠ 0) : y ∈ liveList t := by
  have h1 : y ∈ bucketLive t.b[i] := by
    rw [bucketLive_eq]
    exact mem_liveF.mpr ⟨hy, hyh⟩
  have h2 : bucketLive t.b[i] ∈ t.b.map bucketLive :=
    List.mem_map_of_mem bucketLive (List.getElem_mem hi)
  exact List.mem_flatten.mpr ⟨bucketLive t.b[i], h2, h1⟩

theorem liveList_mem_bucket (t : ht) (x : hn) (hx : x ∈ liveList t) :
    ∃ i, ∃ (hi : i < t.b.length), x ∈ t.b[i].head.flatten ∧ x.h ≠ 0 := by
  rcases List.mem_flatten.mp hx with ⟨l, hl, hxl⟩
  rcases List.mem_map.mp hl with ⟨b, hb, rfl⟩
  rcases List.mem_iff_getElem.mp hb with ⟨i, hi, rfl⟩
  rw [bucketLive_eq] at hxl
  exact ⟨i, hi, (mem_liveF.mp hxl).1, (mem_liveF.mp hxl).2⟩

/-! ### Consequences of the invariant -/

theorem Inv.npos {t : ht} {m : List hn} (h : Inv t m) : 0 < t.n := by
  rcases h.pow with ⟨k, hk⟩
  exact hk ▸ Nat.pos_pow_of_pos k (by norm_num)

theorem Inv.m_nonzero {t : ht} {m : List hn} (h : Inv t m) :
    ∀ x ∈ m, x.h ≠ 0 := by
  intro x hx
  have : x ∈ liveList t := h.perm.symm.subset hx
  rcases liveList_mem_bucket t x this with ⟨i, hi, _, h0⟩
  exact h0

theorem Inv.mem_bucket {t : ht} {m : List hn} (h : Inv t m) (x : hn) (hx : x ∈ m) :
    ∃ (hi : __hash x.h t.n t.rand < t.b.length),
      x ∈ t.b[__hash x.h t.n t.rand].head.flatten := by
  have hxl : x ∈ liveList t := h.perm.symm.subset hx
  rcases liveList_mem_bucket t x hxl with ⟨j, hj, hxj, hx0⟩
  have : __hash x.h t.n t.rand = j := h.place j hj x hxj hx0
  subst this
  exact ⟨hj, hxj⟩

theorem Inv.unique_in_bucket {t : ht} {m : List hn} (h : Inv t m) (x : hn)
    (hx : x ∈ m) (i : Nat) (hi : i < t.b.length) :
    ∀ y ∈ t.b[i].head.flatten, y.h = x.h → y = x := by
  intro y hy hyh
  have hx0 : x.h ≠ 0 := h.m_nonzero x hx
  have hy0 : y.h ≠ 0 := by rw [hyh]; exact hx0
  have hyl : y ∈ liveList t := slot_mem_liveList t i hi y hy hy0
  have hym : y ∈ m := h.perm.subset hyl
  exact List.inj_on_of_nodup_map h.nodup hym hx hyh

theorem Inv.findSlot_eq {t : ht} {m : List hn} (h : Inv t m) (x : hn) (hx : x ∈ m) :
    findSlot (t.b.getD (__hash x.h t.n t.rand) hb0).head x.h = some x := by
  rcases h.mem_bucket x hx with ⟨hi, hmem⟩
  rw [List.getD_eq_getElem t.b hb0 hi]
  exact findSlot_unique _ _ x hmem rfl (h.unique_in_bucket x hx _ hi)

theorem Inv.findSlot_none {t : ht} {m : List hn} (h : Inv t m) (hv : Nat)
    (hv0 : hv ≠ 0) (hvm : hv ∉ m.map hn.h) (i : Nat) (hi : i < t.b.length) :
    findSlot t.b[i].head hv = none := by
  apply findSlot_eq_none
  intro y hy hyh
  have hy0 : y.h ≠ 0 := by rw [hyh]; exact hv0
  have hyl : y ∈ liveList t := slot_mem_liveList t i hi y hy hy0
  have hym : y ∈ m := h.perm.subset hyl
  exact hvm (hyh ▸ List.mem_map_of_mem hn.h hym)

theorem Inv.find_present {t : ht} {m : List hn} (h : Inv t m) (x : hn)
    (hx : x ∈ m) : ht_find t x.h = (some x.v, t) := by
  simp only [ht_find, __findx]
  rw [h.findSlot_eq x hx]
  simp

theorem Inv.find_absent {t : ht} {m : List hn} (h : Inv t m) (hv : Nat)
    (hv0 : hv ≠ 0) (hvm : hv ∉ m.map hn.h) : ht_find t hv = (none, t) := by
  simp only [ht_find, __findx]
  have hi : __hash hv t.n t.rand < t.b.length := by
    rw [h.len]; exact __hash_lt hv t.n t.rand h.npos
  rw [List.getD_eq_getElem t.b hb0 hi, h.findSlot_none hv hv0 hvm _ hi]

theorem Inv.place_set {t : ht} {m : List hn} (h : Inv t m) (i : Nat)
    (hi : i < t.b.length) (b' : hb)
    (hmem : ∀ y ∈ b'.head.flatten, y.h ≠ 0 →
      y ∈ t.b[i].head.flatten ∨ __hash y.h t.n t.rand = i) :
    ∀ j, (hj : j < (t.b.set i b').length) →
      ∀ x ∈ (t.b.set i b')[j].head.flatten, x.h ≠ 0 →
        __hash x.h t.n t.rand = j := by
  intro j hj x hx hx0
  have hj' : j < t.b.length := by simpa using hj
  by_cases hij : i = j
  · subst hij
    rw [List.getElem_set_self hj] at hx
    rcases hmem x hx hx0 with h' | h'
    · exact h.place i hj' x h' hx0
    · exact h'
  · rw [List.getElem_set_ne hij hj] at hx
    exact h.place j hj' x hx hx0

/-! ### `ht_remove` -/

theorem Inv.remove_present {t : ht} {m2 : List hn} {x : hn} (h : Inv t (x :: m2)) :
    (ht_remove t x.h).1 = some x.v ∧ Inv (ht_remove t x.h).2 m2 := by
  have hxm : x ∈ x :: m2 := List.mem_cons_self x m2
  have hfs := h.findSlot_eq x hxm
  rcases h.mem_bucket x hxm with ⟨hi, hmemb⟩
  have heq : ht_remove t x.h = (some x.v, { t with b := t.b.set (__hash x.h t.n t.rand) ({ t.b.getD (__hash x.h t.n t.rand) hb0 with head := clearChain (t.b.getD (__hash x.h t.n t.rand) hb0).head x.h }) }) := by
    simp only [ht_remove, __findx]
    rw [hfs]
    simp
  rw [heq]
  refine ⟨rfl, ?_⟩
  set i := __hash x.h t.n t.rand with hidef
  have hgetd : t.b.getD i hb0 = t.b[i] := List.getD_eq_getElem t.b hb0 hi
  rw [hgetd]
  set bi : hb := t.b[i] with hbidef
  have hx0 : x.h ≠ 0 := h.m_nonzero x hxm
  have huniq := h.unique_in_bucket x hxm i hi
  have hflat : (clearChain bi.head x.h).flatten = zeroFirst bi.head.flatten x.h :=
    clearChain_flatten bi.head x.h
  have hliveF : liveF (zeroFirst bi.head.flatten x.h) = (liveF bi.head.flatten).erase x :=
    zeroFirst_liveF_erase bi.head.flatten x x.h rfl hx0 huniq
  constructor
  · simpa using h.len
  · exact h.pow
  · apply h.place_set i hi
    intro y hy hy0
    rw [hflat] at hy
    rcases zeroFirst_mem bi.head.flatten x.h y hy with h' | h'
    · exact absurd (h' ▸ rfl) hy0
    · exact Or.inl h'
  · show (((t.b.set i _).map bucketLive).flatten).Perm m2
    rw [flatten_map_set bucketLive t.b i hi]
    have hbl : bucketLive { bi with head := clearChain bi.head x.h } =
        (bucketLive bi).erase x := by
      rw [bucketLive_eq]
      simp only [hflat, hliveF]
      rw [bucketLive_eq]
    rw [hbl]
    have hxbl : x ∈ bucketLive bi := by
      rw [bucketLive_eq]
      exact mem_liveF.mpr ⟨hmemb, hx0⟩
    have hdec : (liveList t).Perm
        (x :: (((t.b.take i).map bucketLive).flatten ++ (bucketLive bi).erase x ++
          ((t.b.drop (i + 1)).map bucketLive).flatten)) := by
      have h1 : liveList t =
          ((t.b.take i).map bucketLive).flatten ++ bucketLive bi ++
            ((t.b.drop (i + 1)).map bucketLive).flatten :=
        flatten_map_decomp bucketLive t.b i hi
      rw [h1]
      have h2 : (bucketLive bi).Perm (x :: (bucketLive bi).erase x) :=
        List.perm_cons_erase hxbl
      refine (List.Perm.append_right _ (List.Perm.append_left _ h2)).trans ?_
      simp only [List.append_assoc, List.cons_append]
      exact List.perm_middle
    have hcomb : (x :: (((t.b.take i).map bucketLive).flatten ++
        (bucketLive bi).erase x ++
        ((t.b.drop (i + 1)).map bucketLive).flatten)).Perm (x :: m2) :=
      hdec.symm.trans h.perm
    exact List.Perm.cons_inv hcomb
  · exact (List.nodup_cons.mp (by simpa using h.nodup)).2

theorem ht_probe_eq (t : ht) (hv v ns : Nat) :
    ht_probe t hv v ns =
      if chainHasHash (t.b.getD (__hash hv t.n t.rand) hb0).head hv then (true, t)
      else (false, probeFinish (probeStep2 (probeT1 t hv v) (probeBucket1 t hv v) hv ns)) := by
  by_cases hch : chainHasHash (t.b.getD (__hash hv t.n t.rand) hb0).head hv
  · rw [if_pos hch]
    simp only [ht_probe]
    rw [__insert_eq, if_pos hch]
  · rw [if_neg hch]
    simp only [ht_probe]
    rw [__insert_eq, if_neg hch]
    rfl

theorem ht_find_snd (t : ht) (hv : Nat) : (ht_find t hv).2 = t := by
  simp only [ht_find, __findx]
  split
  · rfl
  · simp

theorem Inv.remove_absent {t : ht} {m : List hn} (h : Inv t m) (hv : Nat)
    (hv0 : hv ≠ 0) (hvm : hv ∉ m.map hn.h) : ht_remove t hv = (none, t) := by
  simp only [ht_remove, __findx]
  have hi : __hash hv t.n t.rand < t.b.length := by
    rw [h.len]; exact __hash_lt hv t.n t.rand h.npos
  rw [List.getD_eq_getElem t.b hb0 hi, h.findSlot_none hv hv0 hvm _ hi]

theorem Inv_config {t t' : ht} {m : List hn} (h : Inv t m) (hbeq : t'.b = t.b)
    (hneq : t'.n = t.n) (hreq : t'.rand = t.rand) : Inv t' m := by
  constructor
  · rw [hbeq, hneq]; exact h.len
  · rw [hneq]; exact h.pow
  · intro i hi x hx hx0
    rw [hneq, hreq]
    rw [hbeq] at hi
    refine h.place i hi x ?_ hx0
    have : t'.b[i] = t.b[i] := by congr 1
    rw [← this]
    exact hx
  · show ((t'.b.map bucketLive).flatten).Perm m
    rw [hbeq]
    exact h.perm
  · exact h.nodup

theorem Inv.remove_zero {t : ht} {m : List hn} (h : Inv t m) :
    Inv (ht_remove t 0).2 m := by
  have hi : __hash 0 t.n t.rand < t.b.length := by
    rw [h.len]; exact __hash_lt 0 t.n t.rand h.npos
  cases hfs : findSlot (t.b.getD (__hash 0 t.n t.rand) hb0).head 0 with
  | none =>
      have heq : ht_remove t 0 = (none, t) := by
        simp only [ht_remove, __findx]
        rw [hfs]
      rw [heq]
      exact h
  | some y =>
      have heq : (ht_remove t 0).2 = { t with b := t.b.set (__hash 0 t.n t.rand) ({ t.b.getD (__hash 0 t.n t.rand) hb0 with head := clearChain (t.b.getD (__hash 0 t.n t.rand) hb0).head 0 }) } := by
        simp only [ht_remove, __findx]
        rw [hfs]
        simp
      rw [heq]
      set i := __hash 0 t.n t.rand with hidef
      have hgetd : t.b.getD i hb0 = t.b[i] := List.getD_eq_getElem t.b hb0 hi
      rw [hgetd]
      set bi : hb := t.b[i] with hbidef
      have hflat : (clearChain bi.head 0).flatten = zeroFirst bi.head.flatten 0 :=
        clearChain_flatten bi.head 0
      constructor
      · simpa using h.len
      · exact h.pow
      · apply h.place_set i hi
        intro y' hy' hy0
        rw [hflat] at hy'
        rcases zeroFirst_mem bi.head.flatten 0 y' hy' with h' | h'
        · exact absurd (h' ▸ rfl) hy0
        · exact Or.inl h'
      · show (((t.b.set i _).map bucketLive).flatten).Perm m
        rw [flatten_map_set bucketLive t.b i hi]
        have hbl : bucketLive { bi with head := clearChain bi.head 0 } = bucketLive bi := by
          rw [bucketLive_eq]
          simp only [hflat]
          rw [zeroFirst_zero_liveF, bucketLive_eq]
        rw [hbl, ← flatten_map_decomp bucketLive t.b i hi]
        exact h.perm
      · exact h.nodup

/-! ### The redistribution fold of `resize` -/

theorem perm_set_middle {α : Type} (A C X' X : List α) (p : α)
    (hX : X'.Perm (p :: X)) : (A ++ X' ++ C).Perm (p :: (A ++ X ++ C)) := by
  refine (List.Perm.append_right C (List.Perm.append_left A hX)).trans ?_
  simp only [List.append_assoc, List.cons_append]
  exact List.perm_middle

theorem place_set_list (nn salt : Nat) (bs : List hb) (i : Nat)
    (hi : i < bs.length) (b' : hb)
    (hplace : ∀ j, (hj : j < bs.length) → ∀ x ∈ bs[j].head.flatten, x.h ≠ 0 →
      __hash x.h nn salt = j)
    (hmem : ∀ y ∈ b'.head.flatten, y.h ≠ 0 →
      y ∈ bs[i].head.flatten ∨ __hash y.h nn salt = i) :
    ∀ j, (hj : j < (bs.set i b').length) → ∀ x ∈ (bs.set i b')[j].head.flatten,
      x.h ≠ 0 → __hash x.h nn salt = j := by
  intro j hj x hx hx0
  have hj' : j < bs.length := by simpa using hj
  by_cases hij : i = j
  · subst hij
    rw [List.getElem_set_self hj] at hx
    rcases hmem x hx hx0 with h' | h'
    · exact hplace i hj' x h' hx0
    · exact h'
  · rw [List.getElem_set_ne hij hj] at hx
    exact hplace j hj' x hx hx0

theorem redist_fold (nn salt : Nat) (hnn : 0 < nn) (ns : List hn) :
    ∀ (bs : List hb) (s2 s3 s4 : Nat),
      bs.length = nn →
      (∀ j, (hj : j < bs.length) → ∀ x ∈ bs[j].head.flatten, x.h ≠ 0 →
        __hash x.h nn salt = j) →
      ((ns.foldl (redistOne nn salt) (bs, s2, s3, s4)).1.length = nn ∧
       (∀ j, (hj : j < (ns.foldl (redistOne nn salt) (bs, s2, s3, s4)).1.length) →
         ∀ x ∈ (ns.foldl (redistOne nn salt) (bs, s2, s3, s4)).1[j].head.flatten,
           x.h ≠ 0 → __hash x.h nn salt = j) ∧
       ((ns.foldl (redistOne nn salt) (bs, s2, s3, s4)).1.map bucketLive).flatten.Perm
         ((bs.map bucketLive).flatten ++ liveF ns)) := by
  induction ns with
  | nil =>
      intro bs s2 s3 s4 hlen hplace
      refine ⟨hlen, hplace, ?_⟩
      simp [liveF]
  | cons p rest ih =>
      intro bs s2 s3 s4 hlen hplace
      by_cases hp : p.h = 0
      · have hred : redistOne nn salt (bs, s2, s3, s4) p = (bs, s2, s3, s4) := by
          simp [redistOne, hp]
        rw [List.foldl_cons, hred]
        obtain ⟨l1, l2, l3⟩ := ih bs s2 s3 s4 hlen hplace
        refine ⟨l1, l2, ?_⟩
        rw [liveF_cons_dead p rest hp]
        exact l3
      · have hj : __hash p.h nn salt < bs.length := by
          rw [hlen]; exact __hash_lt _ _ _ hnn
        have hgetd : bs.getD (__hash p.h nn salt) hb0 = bs[__hash p.h nn salt] :=
          List.getD_eq_getElem bs hb0 hj
        have hred : redistOne nn salt (bs, s2, s3, s4) p =
            (bs.set (__hash p.h nn salt) (__insert_quick bs[__hash p.h nn salt] p),
             max s2 (__insert_quick bs[__hash p.h nn salt] p).bags,
             max s3 (__insert_quick bs[__hash p.h nn salt] p).n,
             if (__insert_quick bs[__hash p.h nn salt] p).n = 1 then s4 + 1 else s4) := by
          simp [redistOne, hp, List.getElem?_eq_getElem hj]
        rw [List.foldl_cons, hred]
        set j := __hash p.h nn salt with hjdef
        set x := __insert_quick bs[j] p with hxdef
        have hlen' : (bs.set j x).length = nn := by simp [hlen]
        have hplace' : ∀ k, (hk : k < (bs.set j x).length) →
            ∀ y ∈ (bs.set j x)[k].head.flatten, y.h ≠ 0 → __hash y.h nn salt = k := by
          apply place_set_list nn salt bs j hj x hplace
          intro y hy hy0
          rcases __insert_quick_mem bs[j] p y hy with h' | h' | h'
          · right; rw [h']
          · exact absurd (h' ▸ rfl) hy0
          · exact Or.inl h'
        obtain ⟨l1, l2, l3⟩ := ih (bs.set j x) _ _ _ hlen' hplace'
        refine ⟨l1, l2, ?_⟩
        refine l3.trans ?_
        have hx : (bucketLive x).Perm (p :: bucketLive bs[j]) := by
          rw [hxdef]; exact __insert_quick_liveF bs[j] p hp
        have hset : (((bs.set j x).map bucketLive).flatten).Perm
            (p :: (bs.map bucketLive).flatten) := by
          rw [flatten_map_set bucketLive bs j hj]
          rw [flatten_map_decomp bucketLive bs j hj]
          exact perm_set_middle _ _ _ _ p hx
        refine (List.Perm.append_right (liveF rest) hset).trans ?_
        rw [liveF_cons_live p rest hp]
        exact List.perm_middle.symm

theorem resize_b (t : ht) (salt : Nat) :
    (resize t salt).b =
      ((allSlots t).foldl (redistOne (t.n * 2) salt)
        (List.replicate (t.n * 2) hb0, 0, 0, 0)).1 := rfl

theorem resize_n (t : ht) (salt : Nat) : (resize t salt).n = t.n * 2 := rfl

theorem resize_rand (t : ht) (salt : Nat) : (resize t salt).rand = salt := rfl

theorem resize_nodes (t : ht) (salt : Nat) : (resize t salt).nodes = t.nodes := rfl

theorem resize_splits (t : ht) (salt : Nat) : (resize t salt).splits = t.splits := rfl

theorem flatten_replicate_nil (k : Nat) :
    (List.replicate k ([] : List hn)).flatten = [] := by
  induction k with
  | zero => rfl
  | succ k ih => simp [List.replicate_succ, ih]

theorem liveF_allSlots (t : ht) : liveF (allSlots t) = liveList t := by
  simp only [allSlots, liveList, liveF, bucketLive, List.filter_flatten, List.map_map]
  rfl

theorem Inv.resize_inv {t : ht} {m : List hn} (h : Inv t m) (salt : Nat) :
    Inv (resize t salt) m := by
  have hnn : 0 < t.n * 2 := by have := h.npos; omega
  have hbase_len : (List.replicate (t.n * 2) hb0).length = t.n * 2 := by simp
  have hbase_place : ∀ j, (hj : j < (List.replicate (t.n * 2) hb0).length) →
      ∀ x ∈ (List.replicate (t.n * 2) hb0)[j].head.flatten, x.h ≠ 0 →
        __hash x.h (t.n * 2) salt = j := by
    intro j hj x hx
    rw [List.getElem_replicate] at hx
    simp [hb0] at hx
  obtain ⟨hl, hpl, hperm⟩ := redist_fold (t.n * 2) salt hnn (allSlots t)
    (List.replicate (t.n * 2) hb0) 0 0 0 hbase_len hbase_place
  constructor
  · rw [resize_n]
    simpa only [resize_b] using hl
  · rw [resize_n]
    rcases h.pow with ⟨k, hk⟩
    exact ⟨k + 1, by rw [hk]; ring⟩
  · simp only [resize_b, resize_n, resize_rand]
    exact hpl
  · show (((resize t salt).b.map bucketLive).flatten).Perm m
    rw [resize_b]
    refine hperm.trans ?_
    rw [liveF_allSlots]
    have hz : ((List.replicate (t.n * 2) hb0).map bucketLive).flatten = [] := by
      rw [List.map_replicate]
      have : bucketLive hb0 = [] := rfl
      rw [this]
      exact flatten_replicate_nil _
    rw [hz]
    simpa using h.perm
  · exact h.nodup

/-! ### `ht_probe` preserves the invariant -/

theorem Inv.probe_exists {t : ht} {m : List hn} (h : Inv t m) (x : hn) (hx : x ∈ m)
    (v ns : Nat) : ht_probe t x.h v ns = (true, t) := by
  rcases h.mem_bucket x hx with ⟨hi, hmemb⟩
  have hch : chainHasHash (t.b.getD (__hash x.h t.n t.rand) hb0).head x.h = true := by
    rw [List.getD_eq_getElem t.b hb0 hi]
    exact (chainHasHash_iff _ _).mpr ⟨x, hmemb, rfl⟩
  rw [ht_probe_eq, if_pos hch]

theorem Inv.probeT1_inv {t : ht} {m : List hn} (h : Inv t m) (hv v : Nat)
    (hv0 : hv ≠ 0) (hvm : hv ∉ m.map hn.h) :
    Inv (probeT1 t hv v) ((⟨hv, v⟩ : hn) :: m) := by
  have hi : __hash hv t.n t.rand < t.b.length := by
    rw [h.len]; exact __hash_lt _ _ _ h.npos
  have hgetd : t.b.getD (__hash hv t.n t.rand) hb0 = t.b[__hash hv t.n t.rand] :=
    List.getD_eq_getElem t.b hb0 hi
  constructor
  · show (t.b.set _ _).length = t.n
    rw [List.length_set]; exact h.len
  · exact h.pow
  · show ∀ i, (hi2 : i < (t.b.set _ _).length) → _
    apply h.place_set _ hi
    intro y hy hy0
    rcases __insert_quick_mem (t.b.getD (__hash hv t.n t.rand) hb0) ⟨hv, v⟩ y hy with
      h' | h' | h'
    · right; rw [h']
    · exact absurd (h' ▸ rfl) hy0
    · rw [hgetd] at h'; exact Or.inl h'
  · show (((t.b.set _ _).map bucketLive).flatten).Perm _
    have hIQ : (bucketLive (probeBucket1 t hv v)).Perm
        ((⟨hv, v⟩ : hn) :: bucketLive t.b[__hash hv t.n t.rand]) := by
      unfold probeBucket1
      rw [hgetd]
      exact __insert_quick_liveF _ _ hv0
    rw [flatten_map_set bucketLive t.b _ hi]
    refine (perm_set_middle _ _ _ _ _ hIQ).trans ?_
    refine List.Perm.cons _ ?_
    rw [← flatten_map_decomp bucketLive t.b _ hi]
    exact h.perm
  · rw [List.map_cons, List.nodup_cons]
    exact ⟨hvm, h.nodup⟩

theorem Inv.probe_fresh {t : ht} {m : List hn} (h : Inv t m) (hv v ns : Nat)
    (hv0 : hv ≠ 0) (hvm : hv ∉ m.map hn.h) :
    (ht_probe t hv v ns).1 = false ∧
      Inv (ht_probe t hv v ns).2 ((⟨hv, v⟩ : hn) :: m) := by
  have hi : __hash hv t.n t.rand < t.b.length := by
    rw [h.len]; exact __hash_lt _ _ _ h.npos
  have hch : ¬chainHasHash (t.b.getD (__hash hv t.n t.rand) hb0).head hv = true := by
    rw [List.getD_eq_getElem t.b hb0 hi]
    intro hc
    rcases (chainHasHash_iff _ _).mp hc with ⟨y, hy, hyh⟩
    have hy0 : y.h ≠ 0 := by rw [hyh]; exact hv0
    have : y ∈ m := h.perm.subset (slot_mem_liveList t _ hi y hy hy0)
    exact hvm (hyh ▸ List.mem_map_of_mem hn.h this)
  rw [ht_probe_eq, if_neg hch]
  refine ⟨rfl, ?_⟩
  have h1 : Inv (probeT1 t hv v) ((⟨hv, v⟩ : hn) :: m) := h.probeT1_inv hv v hv0 hvm
  have hstep : Inv (probeStep2 (probeT1 t hv v) (probeBucket1 t hv v) hv ns).1
      ((⟨hv, v⟩ : hn) :: m) := by
    unfold probeStep2
    by_cases hb1 : (probeBucket1 t hv v).n = 1
    · rw [if_pos hb1]
      by_cases hr : ((probeT1 t hv v).fill + 1) * 100 / (1 + (probeT1 t hv v).n) > FILLPCT
      · rw [if_pos hr]
        show Inv (resize { probeT1 t hv v with fill := (probeT1 t hv v).fill + 1, splits := (probeT1 t hv v).splits + 1 } ns) _
        exact (@Inv_config (probeT1 t hv v) { probeT1 t hv v with fill := (probeT1 t hv v).fill + 1, splits := (probeT1 t hv v).splits + 1 } _ h1 rfl rfl rfl).resize_inv ns
      · rw [if_neg hr]
        show Inv { probeT1 t hv v with fill := (probeT1 t hv v).fill + 1 } _
        exact @Inv_config (probeT1 t hv v) { probeT1 t hv v with fill := (probeT1 t hv v).fill + 1 } _ h1 rfl rfl rfl
    · rw [if_neg hb1]
      exact h1
  exact Inv_config hstep rfl rfl rfl

/-! ### Reachability: every state built by valid calls satisfies the invariant -/

theorem Inv.perm_model {t : ht} {m m' : List hn} (h : Inv t m) (hp : m.Perm m') :
    Inv t m' where
  len := h.len
  pow := h.pow
  place := h.place
  perm := h.perm.trans hp
  nodup := (hp.map hn.h).nodup h.nodup

theorem runOps_cons (t : ht) (op : Op) (ops : List Op) :
    runOps t (op :: ops) = runOps (applyOp t op) ops := rfl

theorem runOps_nil (t : ht) : runOps t [] = t := rfl

theorem Inv.applyOp_inv {t : ht} {m : List hn} (h : Inv t m) (op : Op)
    (hop : validOp op = true) : ∃ m', Inv (applyOp t op) m' := by
  cases op with
  | probe hv v ns =>
      have hv0 : hv ≠ 0 := by simpa [validOp] using hop
      by_cases hvm : hv ∈ m.map hn.h
      · rcases List.mem_map.mp hvm with ⟨x, hxm, hxh⟩
        refine ⟨m, ?_⟩
        show Inv (ht_probe t hv v ns).2 m
        subst hxh
        rw [h.probe_exists x hxm v ns]
        exact h
      · exact ⟨⟨hv, v⟩ :: m, (h.probe_fresh hv v ns hv0 hvm).2⟩
  | find hv =>
      refine ⟨m, ?_⟩
      show Inv (ht_find t hv).2 m
      rw [ht_find_snd]
      exact h
  | remove hv =>
      by_cases hv0 : hv = 0
      · subst hv0
        exact ⟨m, h.remove_zero⟩
      · by_cases hvm : hv ∈ m.map hn.h
        · rcases List.mem_map.mp hvm with ⟨x, hxm, hxh⟩
          have h' : Inv t (x :: m.erase x) := h.perm_model (List.perm_cons_erase hxm)
          refine ⟨m.erase x, ?_⟩
          show Inv (ht_remove t hv).2 (m.erase x)
          subst hxh
          exact h'.remove_present.2
        · refine ⟨m, ?_⟩
          show Inv (ht_remove t hv).2 m
          rw [h.remove_absent hv hv0 hvm]
          exact h

theorem ht_init_b (nlog2 salt : Nat) :
    (ht_init nlog2 salt).b =
      List.replicate (1 <<< (if nlog2 = 0 then 10 else nlog2)) hb0 := rfl

theorem ht_init_n (nlog2 salt : Nat) :
    (ht_init nlog2 salt).n = 1 <<< (if nlog2 = 0 then 10 else nlog2) := rfl

theorem ht_init_inv (nlog2 salt : Nat) : Inv (ht_init nlog2 salt) [] := by
  constructor
  · rw [ht_init_b, ht_init_n]
    simp
  · exact ⟨if nlog2 = 0 then 10 else nlog2, by rw [ht_init_n, Nat.one_shiftLeft]⟩
  · intro i hi x hx
    have hmem : (ht_init nlog2 salt).b[i] ∈ (ht_init nlog2 salt).b := List.getElem_mem hi
    have : (ht_init nlog2 salt).b[i] = hb0 := List.eq_of_mem_replicate hmem
    rw [this] at hx
    simp [hb0] at hx
  · show ((((ht_init nlog2 salt).b).map bucketLive).flatten).Perm []
    rw [ht_init_b, List.map_replicate]
    have h2 : bucketLive hb0 = [] := rfl
    rw [h2, flatten_replicate_nil]
  · simp

theorem runOps_inv_aux (ops : List Op) :
    ∀ (t : ht) (m : List hn), Inv t m → ValidOps ops →
      ∃ m', Inv (runOps t ops) m' := by
  induction ops with
  | nil => exact fun t m h _ => ⟨m, h⟩
  | cons op rest ih =>
      intro t m h hv
      have hop : validOp op = true := hv op (List.mem_cons_self op rest)
      have hrest : ValidOps rest := fun o ho => hv o (List.mem_cons_of_mem op ho)
      obtain ⟨m1, h1⟩ := h.applyOp_inv op hop
      rw [runOps_cons]
      exact ih _ m1 h1 hrest

theorem runOps_inv (nlog2 salt : Nat) (ops : List Op) (hops : ValidOps ops) :
    ∃ m, Inv (runOps (ht_init nlog2 salt) ops) m :=
  runOps_inv_aux ops _ [] (ht_init_inv nlog2 salt) hops

/-! ### Counter accounting: `splits`, `n`, `nodes` -/

theorem redistOne_length (nn salt : Nat) (st : List hb × Nat × Nat × Nat) (p : hn) :
    ((redistOne nn salt st p).1).length = st.1.length := by
  rcases st with ⟨bs, s2, s3, s4⟩
  by_cases hp : p.h = 0 <;> simp [redistOne, hp]

theorem redist_fold_length (nn salt : Nat) (ns : List hn) :
    ∀ st : List hb × Nat × Nat × Nat,
      ((ns.foldl (redistOne nn salt) st).1).length = st.1.length := by
  induction ns with
  | nil => intro st; rfl
  | cons p rest ih =>
      intro st
      rw [List.foldl_cons, ih (redistOne nn salt st p), redistOne_length]

theorem resize_b_length (t : ht) (salt : Nat) : (resize t salt).b.length = t.n * 2 := by
  rw [resize_b, redist_fold_length]
  simp

theorem remove_splits_n (t : ht) (hv : Nat) :
    (ht_remove t hv).2.splits = t.splits ∧ (ht_remove t hv).2.n = t.n := by
  simp only [ht_remove, __findx]
  split
  · exact ⟨rfl, rfl⟩
  · exact ⟨rfl, rfl⟩

theorem probe_splits_n (t : ht) (hv v ns : Nat) :
    ((ht_probe t hv v ns).2.splits = t.splits ∧ (ht_probe t hv v ns).2.n = t.n) ∨
    ((ht_probe t hv v ns).2.splits = t.splits + 1 ∧
      (ht_probe t hv v ns).2.n = t.n * 2) := by
  rw [ht_probe_eq]
  by_cases hch : chainHasHash (t.b.getD (__hash hv t.n t.rand) hb0).head hv = true
  · rw [if_pos hch]; left; exact ⟨rfl, rfl⟩
  · rw [if_neg hch]
    unfold probeStep2
    by_cases hb1 : (probeBucket1 t hv v).n = 1
    · rw [if_pos hb1]
      by_cases hr : ((probeT1 t hv v).fill + 1) * 100 / (1 + (probeT1 t hv v).n) > FILLPCT
      · rw [if_pos hr]; right; exact ⟨rfl, rfl⟩
      · rw [if_neg hr]; left; exact ⟨rfl, rfl⟩
    · rw [if_neg hb1]; left; exact ⟨rfl, rfl⟩

theorem applyOp_splits_n (t : ht) (op : Op) :
    ((applyOp t op).splits = t.splits ∧ (applyOp t op).n = t.n) ∨
    ((applyOp t op).splits = t.splits + 1 ∧ (applyOp t op).n = t.n * 2) := by
  cases op with
  | probe hv v ns => exact probe_splits_n t hv v ns
  | find hv =>
      left
      show ((ht_find t hv).2.splits = t.splits ∧ (ht_find t hv).2.n = t.n)
      rw [ht_find_snd]
      exact ⟨rfl, rfl⟩
  | remove hv => exact Or.inl (remove_splits_n t hv)

theorem runOps_splits_n (ops : List Op) :
    ∀ t : ht, ∃ k, (runOps t ops).splits = t.splits + k ∧
      (runOps t ops).n = t.n * 2 ^ k := by
  induction ops with
  | nil => intro t; exact ⟨0, by simp [runOps_nil], by simp [runOps_nil]⟩
  | cons op rest ih =>
      intro t
      rw [runOps_cons]
      obtain ⟨k, h1, h2⟩ := ih (applyOp t op)
      rcases applyOp_splits_n t op with ⟨hs, hnn⟩ | ⟨hs, hnn⟩
      · exact ⟨k, by rw [h1, hs], by rw [h2, hnn]⟩
      · refine ⟨k + 1, by rw [h1, hs]; ring, by rw [h2, hnn]; ring⟩

theorem remove_nodes (t : ht) (hv : Nat) : (ht_remove t hv).2.nodes = t.nodes := by
  simp only [ht_remove, __findx]
  split
  · rfl
  · rfl

theorem probe_nodes (t : ht) (hv v ns : Nat) :
    (ht_probe t hv v ns).2.nodes =
      t.nodes + (if (ht_probe t hv v ns).1 then 0 else 1) := by
  rw [ht_probe_eq]
  by_cases hch : chainHasHash (t.b.getD (__hash hv t.n t.rand) hb0).head hv = true
  · rw [if_pos hch]; rfl
  · rw [if_neg hch]
    show (probeFinish (probeStep2 (probeT1 t hv v) (probeBucket1 t hv v) hv ns)).nodes =
      t.nodes + 1
    unfold probeStep2
    by_cases hb1 : (probeBucket1 t hv v).n = 1
    · rw [if_pos hb1]
      by_cases hr : ((probeT1 t hv v).fill + 1) * 100 / (1 + (probeT1 t hv v).n) > FILLPCT
      · rw [if_pos hr]; rfl
      · rw [if_neg hr]; rfl
    · rw [if_neg hb1]; rfl

theorem runOps_nodes (ops : List Op) :
    ∀ t : ht, (runOps t ops).nodes = t.nodes + countInserted t ops := by
  induction ops with
  | nil => intro t; simp [runOps_nil, countInserted]
  | cons op rest ih =>
      intro t
      rw [runOps_cons, ih (applyOp t op)]
      cases op with
      | probe hv v ns =>
          have hc : countInserted t (Op.probe hv v ns :: rest) =
              (if (ht_probe t hv v ns).1 then 0 else 1) +
                countInserted (applyOp t (Op.probe hv v ns)) rest := rfl
          rw [hc]
          have ha : (applyOp t (Op.probe hv v ns)).nodes =
              t.nodes + (if (ht_probe t hv v ns).1 then 0 else 1) :=
            probe_nodes t hv v ns
          rw [ha, Nat.add_assoc]
      | find hv =>
          have hc : countInserted t (Op.find hv :: rest) =
              0 + countInserted (applyOp t (Op.find hv)) rest := rfl
          rw [hc]
          have ha : (applyOp t (Op.find hv)).nodes = t.nodes := by
            show (ht_find t hv).2.nodes = t.nodes
            rw [ht_find_snd]
          rw [ha, Nat.zero_add]
      | remove hv =>
          have hc : countInserted t (Op.remove hv :: rest) =
              0 + countInserted (applyOp t (Op.remove hv)) rest := rfl
          rw [hc]
          have ha : (applyOp t (Op.remove hv)).nodes = t.nodes := remove_nodes t hv
          rw [ha, Nat.zero_add]

/-! ### Structural well-formedness is unconditional -/

theorem resize_struct {t : ht} (salt : Nat) (h : StructWF t) :
    StructWF (resize t salt) := by
  obtain ⟨hlen, k, hk⟩ := h
  refine ⟨?_, k + 1, ?_⟩
  · rw [resize_b_length, resize_n]
  · rw [resize_n, hk]
    ring

theorem probeT1_struct {t : ht} (hv v : Nat) (h : StructWF t) :
    StructWF (probeT1 t hv v) := by
  obtain ⟨hlen, k, hk⟩ := h
  refine ⟨?_, k, hk⟩
  show (t.b.set _ _).length = t.n
  simp [hlen]

theorem probe_struct {t : ht} (hv v ns : Nat) (h : StructWF t) :
    StructWF (ht_probe t hv v ns).2 := by
  rw [ht_probe_eq]
  by_cases hch : chainHasHash (t.b.getD (__hash hv t.n t.rand) hb0).head hv = true
  · rw [if_pos hch]; exact h
  · rw [if_neg hch]
    have h1 : StructWF (probeT1 t hv v) := probeT1_struct hv v h
    unfold probeStep2
    by_cases hb1 : (probeBucket1 t hv v).n = 1
    · rw [if_pos hb1]
      by_cases hr : ((probeT1 t hv v).fill + 1) * 100 / (1 + (probeT1 t hv v).n) > FILLPCT
      · rw [if_pos hr]
        show StructWF (resize { probeT1 t hv v with fill := (probeT1 t hv v).fill + 1, splits := (probeT1 t hv v).splits + 1 } ns)
        exact resize_struct ns h1
      · rw [if_neg hr]
        exact h1
    · rw [if_neg hb1]
      exact h1

theorem remove_struct {t : ht} (hv : Nat) (h : StructWF t) :
    StructWF (ht_remove t hv).2 := by
  obtain ⟨hlen, k, hk⟩ := h
  simp only [ht_remove, __findx]
  split
  · exact ⟨hlen, k, hk⟩
  · refine ⟨?_, k, hk⟩
    show (t.b.set _ _).length = t.n
    simp [hlen]

theorem applyOp_struct {t : ht} (op : Op) (h : StructWF t) :
    StructWF (applyOp t op) := by
  cases op with
  | probe hv v ns => exact probe_struct hv v ns h
  | find hv =>
      show StructWF (ht_find t hv).2
      rw [ht_find_snd]
      exact h
  | remove hv => exact remove_struct hv h

theorem runOps_struct (ops : List Op) :
    ∀ t : ht, StructWF t → StructWF (runOps t ops) := by
  induction ops with
  | nil => exact fun t h => h
  | cons op rest ih =>
      intro t h
      rw [runOps_cons]
      exact ih _ (applyOp_struct op h)

theorem ht_init_struct (nlog2 salt : Nat) : StructWF (ht_init nlog2 salt) := by
  refine ⟨?_, if nlog2 = 0 then 10 else nlog2, ?_⟩
  · rw [ht_init_b, ht_init_n]
    simp
  · rw [ht_init_n, Nat.one_shiftLeft]

/-! ### Running a batch of fresh probes -/

theorem probe_run (ps : List (Nat × Nat × Nat)) :
    ∀ (t : ht) (m : List hn), Inv t m →
      (∀ p ∈ ps, p.1 ≠ 0) →
      ((ps.map (fun p => p.1)) ++ m.map hn.h).Nodup →
      Inv (runOps t (probeOps ps)) ((psNodes ps).reverse ++ m) := by
  induction ps with
  | nil =>
      intro t m h _ _
      simpa [probeOps, psNodes, runOps_nil] using h
  | cons p rest ih =>
      intro t m h hnz hnd
      have hp0 : p.1 ≠ 0 := hnz p (List.mem_cons_self p rest)
      have hnd1 : (p.1 :: ((rest.map (fun p => p.1)) ++ m.map hn.h)).Nodup := by
        simpa using hnd
      have hfresh : p.1 ∉ m.map hn.h := by
        intro hc
        exact (List.nodup_cons.mp hnd1).1 (List.mem_append.mpr (Or.inr hc))
      obtain ⟨hins, hInv'⟩ := h.probe_fresh p.1 p.2.1 p.2.2 hp0 hfresh
      have hstep : probeOps (p :: rest) = Op.probe p.1 p.2.1 p.2.2 :: probeOps rest := rfl
      rw [hstep, runOps_cons]
      have hnd' : ((rest.map (fun p => p.1)) ++
          (((⟨p.1, p.2.1⟩ : hn) :: m).map hn.h)).Nodup := by
        simp only [List.map_cons]
        have hperm : ((rest.map (fun p => p.1)) ++ (p.1 :: m.map hn.h)).Perm
            (p.1 :: ((rest.map (fun p => p.1)) ++ m.map hn.h)) := List.perm_middle
        exact hperm.symm.nodup hnd1
      have hres := ih (applyOp t (Op.probe p.1 p.2.1 p.2.2)) ((⟨p.1, p.2.1⟩ : hn) :: m)
        hInv' (fun q hq => hnz q (List.mem_cons_of_mem p hq)) hnd'
      have hl : (psNodes (p :: rest)).reverse ++ m =
          (psNodes rest).reverse ++ ((⟨p.1, p.2.1⟩ : hn) :: m) := by
        simp [psNodes, List.append_assoc]
      rw [hl]
      exact hres

theorem set_self {α : Type} (l : List α) (i : Nat) (hi : i < l.length) :
    l.set i l[i] = l := by
  apply List.ext_getElem?
  intro j
  rw [List.getElem?_set]
  by_cases hij : i = j
  · subst hij
    rw [if_pos rfl, if_pos hi, List.getElem?_eq_getElem hi]
  · rw [if_neg hij]

/-! ### Main properties -/

/-- C1: in every table state reachable by valid public calls, if a
nonzero hash `hv` is not currently present and `ht_probe hv v` reports a
fresh insertion (C return 0, the spec's `Inserted`), then an immediately
following `ht_find hv` returns `Found(v)`. -/
theorem C1_probe_then_find (nlog2 salt : Nat) (ops : List Op) (hops : ValidOps ops)
    (hv v ns : Nat) (hv0 : hv ≠ 0)
    (habs : hv ∉ (liveList (runOps (ht_init nlog2 salt) ops)).map hn.h)
    (_hins : (ht_probe (runOps (ht_init nlog2 salt) ops) hv v ns).1 = false) :
    (ht_find ((ht_probe (runOps (ht_init nlog2 salt) ops) hv v ns).2) hv).1 = some v := by
  obtain ⟨m, hInv⟩ := runOps_inv nlog2 salt ops hops
  have hvm : hv ∉ m.map hn.h := fun hc =>
    habs (((hInv.perm.map hn.h).mem_iff).mpr hc)
  obtain ⟨_, hInv2⟩ := hInv.probe_fresh hv v ns hv0 hvm
  have hfind := hInv2.find_present ⟨hv, v⟩ (List.mem_cons_self _ _)
  have hh : (⟨hv, v⟩ : hn).h = hv := rfl
  rw [hh] at hfind
  rw [hfind]

/-- C1 witness: a concrete fresh probe on the empty 4-bucket table. -/
theorem C1_witness :
    (ht_find ((ht_probe (runOps (ht_init 2 0) []) 5 7 0).2) 5).1 = some 7 :=
  C1_probe_then_find 2 0 [] (by decide) 5 7 0 (by decide) (by decide) (by decide)

/-- C3: in every reachable state, probing a hash that is already present
with value `v1` returns `Exists` (C return 1) with the table unchanged,
and a subsequent find still returns the original `v1` — the stored value
is never overwritten. -/
theorem C3_duplicate_probe (nlog2 salt : Nat) (ops : List Op) (hops : ValidOps ops)
    (hv v1 v2 ns : Nat)
    (hpres : (⟨hv, v1⟩ : hn) ∈ liveList (runOps (ht_init nlog2 salt) ops)) :
    ht_probe (runOps (ht_init nlog2 salt) ops) hv v2 ns =
      (true, runOps (ht_init nlog2 salt) ops) ∧
    (ht_find ((ht_probe (runOps (ht_init nlog2 salt) ops) hv v2 ns).2) hv).1 = some v1 := by
  obtain ⟨m, hInv⟩ := runOps_inv nlog2 salt ops hops
  have hxm : (⟨hv, v1⟩ : hn) ∈ m := hInv.perm.subset hpres
  have hh : (⟨hv, v1⟩ : hn).h = hv := rfl
  have hEx := hInv.probe_exists ⟨hv, v1⟩ hxm v2 ns
  rw [hh] at hEx
  refine ⟨hEx, ?_⟩
  rw [hEx]
  have hfind := hInv.find_present ⟨hv, v1⟩ hxm
  rw [hh] at hfind
  rw [hfind]

/-- C3 witness: probing hash 5 again with a different value. -/
theorem C3_witness :
    ht_probe (runOps (ht_init 2 0) [Op.probe 5 7 0]) 5 9 0 =
      (true, runOps (ht_init 2 0) [Op.probe 5 7 0]) ∧
    (ht_find ((ht_probe (runOps (ht_init 2 0) [Op.probe 5 7 0]) 5 9 0).2) 5).1 = some 7 :=
  C3_duplicate_probe 2 0 [Op.probe 5 7 0] (by decide) 5 7 9 0 (by decide)

/-- C4: in every reachable state, removing a present hash returns its
value; afterwards find reports `NotFound` and a second remove reports
`NotFound` as well. -/
theorem C4_remove_then_gone (nlog2 salt : Nat) (ops : List Op) (hops : ValidOps ops)
    (hv v : Nat)
    (hpres : (⟨hv, v⟩ : hn) ∈ liveList (runOps (ht_init nlog2 salt) ops)) :
    (ht_remove (runOps (ht_init nlog2 salt) ops) hv).1 = some v ∧
    (ht_find ((ht_remove (runOps (ht_init nlog2 salt) ops) hv).2) hv).1 = none ∧
    (ht_remove ((ht_remove (runOps (ht_init nlog2 salt) ops) hv).2) hv).1 = none := by
  obtain ⟨m, hInv⟩ := runOps_inv nlog2 salt ops hops
  have hxm : (⟨hv, v⟩ : hn) ∈ m := hInv.perm.subset hpres
  have hh : (⟨hv, v⟩ : hn).h = hv := rfl
  have hv0 : hv ≠ 0 := hInv.m_nonzero ⟨hv, v⟩ hxm
  have hInv' : Inv (runOps (ht_init nlog2 salt) ops) ((⟨hv, v⟩ : hn) :: m.erase ⟨hv, v⟩) :=
    hInv.perm_model (List.perm_cons_erase hxm)
  have hrm := hInv'.remove_present
  rw [hh] at hrm
  obtain ⟨h1, hInv2⟩ := hrm
  have hnotin : hv ∉ (m.erase (⟨hv, v⟩ : hn)).map hn.h := by
    have := hInv'.nodup
    simp only [List.map_cons] at this
    exact (List.nodup_cons.mp this).1
  refine ⟨h1, ?_, ?_⟩
  · rw [hInv2.find_absent hv hv0 hnotin]
  · rw [hInv2.remove_absent hv hv0 hnotin]

/-- C4 witness: remove the only node of a concrete table. -/
theorem C4_witness :
    (ht_remove (runOps (ht_init 2 0) [Op.probe 5 7 0]) 5).1 = some 7 ∧
    (ht_find ((ht_remove (runOps (ht_init 2 0) [Op.probe 5 7 0]) 5).2) 5).1 = none ∧
    (ht_remove ((ht_remove (runOps (ht_init 2 0) [Op.probe 5 7 0]) 5).2) 5).1 = none :=
  C4_remove_then_gone 2 0 [Op.probe 5 7 0] (by decide) 5 7 (by decide)

/-- C10: in every reachable table state, each nonzero hash occupies at
most one slot across all bags of all buckets (the live hashes form a
duplicate-free list). -/
theorem C10_hash_unique (nlog2 salt : Nat) (ops : List Op) (hops : ValidOps ops) :
    ((liveList (runOps (ht_init nlog2 salt) ops)).map hn.h).Nodup := by
  obtain ⟨m, hInv⟩ := runOps_inv nlog2 salt ops hops
  exact ((hInv.perm.map hn.h).symm).nodup hInv.nodup

/-- C10 witness: uniqueness in a concrete post-resize state. -/
theorem C10_witness : ((liveList (runOps (ht_init 2 0) ops6)).map hn.h).Nodup :=
  C10_hash_unique 2 0 ops6 (by decide)

/-- C7: the table's total node counter equals the number of probe calls
that inserted a fresh node (`Inserted`), for any call sequence from any
`ht_init` state; and `resize` never changes the node counter. -/
theorem C7_nodes_count (nlog2 salt : Nat) (ops : List Op) :
    (runOps (ht_init nlog2 salt) ops).nodes =
      countInserted (ht_init nlog2 salt) ops ∧
    ∀ (t : ht) (s : Nat), (resize t s).nodes = t.nodes := by
  constructor
  · have h := runOps_nodes ops (ht_init nlog2 salt)
    have h0 : (ht_init nlog2 salt).nodes = 0 := rfl
    rw [h, h0, Nat.zero_add]
  · exact fun t s => resize_nodes t s

/-- C8: `ht_init` creates `2^size_log2` buckets (1024 when the argument
is 0), `resize` exactly doubles the bucket count, and in every state
built by public calls the bucket-array length equals `n`, a power of
two. -/
theorem C8_bucket_count (nlog2 salt : Nat) (ops : List Op) :
    (ht_init 0 salt).n = 1024 ∧
    (ht_init nlog2 salt).n = 2 ^ (if nlog2 = 0 then 10 else nlog2) ∧
    (∀ (t : ht) (s : Nat), (resize t s).n = t.n * 2) ∧
    (∃ k, (runOps (ht_init nlog2 salt) ops).n = 2 ^ k ∧
      (runOps (ht_init nlog2 salt) ops).b.length =
        (runOps (ht_init nlog2 salt) ops).n) := by
  refine ⟨?_, ?_, fun t s => resize_n t s, ?_⟩
  · rw [ht_init_n, Nat.one_shiftLeft]
    norm_num
  · rw [ht_init_n, Nat.one_shiftLeft]
  · obtain ⟨hlen, k, hk⟩ := runOps_struct ops (ht_init nlog2 salt) (ht_init_struct nlog2 salt)
    exact ⟨k, hk, hlen⟩

/-- C9 counterexample: the reachable table `t9` holds hash 10 only, so
hash 0 is not present as a live entry; yet `ht_find 0` and `ht_remove 0`
both report Found (the scan stops on an empty sentinel slot whose stored
hash is 0 and returns its zero value). -/
theorem C9_counterexample :
    ValidOps [Op.probe 10 5 0] ∧
    (liveList t9).map hn.h = [10] ∧
    (ht_find t9 0).1 = some 0 ∧
    (ht_remove t9 0).1 = some 0 := by decide

/-- C9 (amended): for every **nonzero** hash `hv` that no slot holds,
`ht_find` and `ht_remove` return `NotFound` and leave the table
literally unchanged. -/
theorem C9_absent_noop (t : ht) (hv : Nat) (hv0 : hv ≠ 0)
    (habs : hv ∉ (liveList t).map hn.h) :
    ht_find t hv = (none, t) ∧ ht_remove t hv = (none, t) := by
  have hfs : findSlot (t.b.getD (__hash hv t.n t.rand) hb0).head hv = none := by
    by_cases hi : __hash hv t.n t.rand < t.b.length
    · rw [List.getD_eq_getElem t.b hb0 hi]
      apply findSlot_eq_none
      intro y hy hyh
      have hy0 : y.h ≠ 0 := by rw [hyh]; exact hv0
      exact habs (hyh ▸ List.mem_map_of_mem hn.h (slot_mem_liveList t _ hi y hy hy0))
    · rw [List.getD_eq_default t.b hb0 (Nat.le_of_not_lt hi)]
      rfl
  constructor
  · simp only [ht_find, __findx]
    rw [hfs]
  · simp only [ht_remove, __findx]
    rw [hfs]

/-- C9 witness: hash 3 is nonzero and absent from `t9`. -/
theorem C9_witness : ht_find t9 3 = (none, t9) ∧ ht_remove t9 3 = (none, t9) :=
  C9_absent_noop t9 3 (by decide) (by decide)

/-- C6: `ht_remove` only zeroes the matching slot (the bucket-array
image under "slots of each bucket" changes by rewriting the first
matching slot of the target bucket to the sentinel) and leaves every
counter — per-bucket `n` and `bags`, table `nodes`, `fill`, `splits`,
`n`, `rand` — unchanged. -/
theorem C6_remove_frame (t : ht) (hv : Nat) :
    ((ht_remove t hv).2.nodes = t.nodes ∧
     (ht_remove t hv).2.fill = t.fill ∧
     (ht_remove t hv).2.splits = t.splits ∧
     (ht_remove t hv).2.n = t.n ∧
     (ht_remove t hv).2.rand = t.rand ∧
     (ht_remove t hv).2.b.map hb.n = t.b.map hb.n ∧
     (ht_remove t hv).2.b.map hb.bags = t.b.map hb.bags) ∧
    (ht_remove t hv).2.b.map (fun b => b.head.flatten) =
      (t.b.map (fun b => b.head.flatten)).set (__hash hv t.n t.rand)
        (zeroFirst ((t.b.getD (__hash hv t.n t.rand) hb0).head.flatten) hv) := by
  cases hfs : findSlot (t.b.getD (__hash hv t.n t.rand) hb0).head hv with
  | none =>
      have heq : ht_remove t hv = (none, t) := by
        simp only [ht_remove, __findx]
        rw [hfs]
      rw [heq]
      refine ⟨⟨rfl, rfl, rfl, rfl, rfl, rfl, rfl⟩, ?_⟩
      by_cases hi : __hash hv t.n t.rand < t.b.length
      · rw [List.getD_eq_getElem t.b hb0 hi] at hfs ⊢
        have hnone : ∀ x ∈ t.b[__hash hv t.n t.rand].head.flatten, x.h ≠ hv := by
          simp only [findSlot] at hfs
          intro x hx
          have := List.find?_eq_none.mp hfs x hx
          simpa using this
        rw [zeroFirst_of_not_mem _ hv hnone]
        have hmi : __hash hv t.n t.rand < (t.b.map (fun b => b.head.flatten)).length := by
          simpa using hi
        have h1 : t.b[__hash hv t.n t.rand].head.flatten =
            (t.b.map (fun b => b.head.flatten))[__hash hv t.n t.rand] := by
          rw [List.getElem_map]
        rw [h1, set_self]
      · rw [List.getD_eq_default t.b hb0 (Nat.le_of_not_lt hi)]
        have : (t.b.map (fun b => b.head.flatten)).length ≤ __hash hv t.n t.rand := by
          simpa using Nat.le_of_not_lt hi
        rw [List.set_eq_of_length_le this]
  | some x =>
      have hi : __hash hv t.n t.rand < t.b.length := by
        by_contra hcon
        rw [List.getD_eq_default t.b hb0 (Nat.le_of_not_lt hcon)] at hfs
        rw [show hb0.head = ([] : List bag) from rfl] at hfs
        simp [findSlot] at hfs
      have heq : ht_remove t hv = (some x.v, { t with b := t.b.set (__hash hv t.n t.rand) ({ t.b.getD (__hash hv t.n t.rand) hb0 with head := clearChain (t.b.getD (__hash hv t.n t.rand) hb0).head hv }) }) := by
        simp only [ht_remove, __findx]
        rw [hfs]
        simp
      rw [heq]
      rw [List.getD_eq_getElem t.b hb0 hi]
      refine ⟨⟨rfl, rfl, rfl, rfl, rfl, ?_, ?_⟩, ?_⟩
      · simp only [List.map_set]
        have hmi : __hash hv t.n t.rand < (t.b.map hb.n).length := by simpa using hi
        have h1 : hb.n ({ t.b[__hash hv t.n t.rand] with
            head := clearChain (t.b[__hash hv t.n t.rand]).head hv }) =
            (t.b.map hb.n)[__hash hv t.n t.rand] := by
          rw [List.getElem_map]
        rw [h1, set_self]
      · simp only [List.map_set]
        have hmi : __hash hv t.n t.rand < (t.b.map hb.bags).length := by simpa using hi
        have h1 : hb.bags ({ t.b[__hash hv t.n t.rand] with
            head := clearChain (t.b[__hash hv t.n t.rand]).head hv }) =
            (t.b.map hb.bags)[__hash hv t.n t.rand] := by
          rw [List.getElem_map]
        rw [h1, set_self]
      · simp only [List.map_set]
        rw [clearChain_flatten]

/-- C5 counterexample: `tD` is reachable (six valid probes from
`init(2)`), its fill ratio 5·100/9 = 55 exceeds `FILLPCT` = 50, and the
probe of hash 13 inserts a fresh node — yet the resize engine is not
invoked (`splits` stays 1, and the ratio still exceeds the threshold
after the call), because the code only tests the threshold when the
target bucket's counter just became 1. -/
theorem C5_counterexample :
    ValidOps ops6 ∧
    (ht_probe tD 13 7 0).1 = false ∧
    tD.fill * 100 / (1 + tD.n) > FILLPCT ∧
    (ht_probe tD 13 7 0).2.fill * 100 / (1 + (ht_probe tD 13 7 0).2.n) > FILLPCT ∧
    (ht_probe tD 13 7 0).2.splits = tD.splits := by decide

/-- C5 (amended): on a probe that inserts a fresh node, the resize
engine is invoked exactly when the target bucket's node counter became
exactly 1 **and** the updated ratio `(fill+1)*100/(1+n)` exceeds
`FILLPCT`; when the counter became 1 without crossing the threshold the
fill counter is incremented (and no resize happens); when the counter
did not become 1, neither `fill` nor `splits` changes. -/
theorem C5_fill_and_split (t : ht) (hv v ns : Nat)
    (hins : (ht_probe t hv v ns).1 = false) :
    ((ht_probe t hv v ns).2.splits = t.splits + 1 ↔
      ((probeBucket1 t hv v).n = 1 ∧ (t.fill + 1) * 100 / (1 + t.n) > FILLPCT)) ∧
    ((probeBucket1 t hv v).n = 1 → ¬((t.fill + 1) * 100 / (1 + t.n) > FILLPCT) →
      (ht_probe t hv v ns).2.fill = t.fill + 1 ∧
        (ht_probe t hv v ns).2.splits = t.splits) ∧
    ((probeBucket1 t hv v).n ≠ 1 →
      (ht_probe t hv v ns).2.fill = t.fill ∧
        (ht_probe t hv v ns).2.splits = t.splits) := by
  have hch : ¬chainHasHash (t.b.getD (__hash hv t.n t.rand) hb0).head hv = true := by
    intro hc
    rw [ht_probe_eq, if_pos hc] at hins
    exact absurd hins (by simp)
  rw [ht_probe_eq, if_neg hch]
  unfold probeStep2
  by_cases hb1 : (probeBucket1 t hv v).n = 1
  · rw [if_pos hb1]
    by_cases hr : ((probeT1 t hv v).fill + 1) * 100 / (1 + (probeT1 t hv v).n) > FILLPCT
    · rw [if_pos hr]
      refine ⟨⟨fun _ => ⟨hb1, hr⟩, fun _ => rfl⟩, ?_, ?_⟩
      · intro _ hcon
        exact absurd hr hcon
      · intro hcon
        exact absurd hb1 hcon
    · rw [if_neg hr]
      have h1 : (probeFinish ({ probeT1 t hv v with fill := (probeT1 t hv v).fill + 1 }, probeBucket1 t hv v)).splits = t.splits := rfl
      have h2 : (probeFinish ({ probeT1 t hv v with fill := (probeT1 t hv v).fill + 1 }, probeBucket1 t hv v)).fill = t.fill + 1 := rfl
      refine ⟨?_, ?_, ?_⟩
      · rw [h1]
        constructor
        · intro hcon
          exact absurd hcon (by omega)
        · rintro ⟨_, hr'⟩
          exact absurd hr' hr
      · intro _ _
        exact ⟨h2, h1⟩
      · intro hcon
        exact absurd hb1 hcon
  · rw [if_neg hb1]
    have h1 : (probeFinish (probeT1 t hv v, probeBucket1 t hv v)).splits = t.splits := rfl
    have h2 : (probeFinish (probeT1 t hv v, probeBucket1 t hv v)).fill = t.fill := rfl
    refine ⟨?_, ?_, ?_⟩
    · rw [h1]
      constructor
      · intro hcon
        exact absurd hcon (by omega)
      · rintro ⟨hc, _⟩
        exact absurd hc hb1
    · intro hc _
      exact absurd hc hb1
    · intro _
      exact ⟨h2, h1⟩

/-- C5 witness: a fresh probe on the empty 4-bucket table lands in an
empty bucket without crossing the threshold. -/
theorem C5_witness :
    ((ht_probe (ht_init 2 0) 5 7 0).2.splits = (ht_init 2 0).splits + 1 ↔
      ((probeBucket1 (ht_init 2 0) 5 7).n = 1 ∧
        ((ht_init 2 0).fill + 1) * 100 / (1 + (ht_init 2 0).n) > FILLPCT)) ∧
    ((probeBucket1 (ht_init 2 0) 5 7).n = 1 →
      ¬(((ht_init 2 0).fill + 1) * 100 / (1 + (ht_init 2 0).n) > FILLPCT) →
      (ht_probe (ht_init 2 0) 5 7 0).2.fill = (ht_init 2 0).fill + 1 ∧
        (ht_probe (ht_init 2 0) 5 7 0).2.splits = (ht_init 2 0).splits) ∧
    ((probeBucket1 (ht_init 2 0) 5 7).n ≠ 1 →
      (ht_probe (ht_init 2 0) 5 7 0).2.fill = (ht_init 2 0).fill ∧
        (ht_probe (ht_init 2 0) 5 7 0).2.splits = (ht_init 2 0).splits) :=
  C5_fill_and_split (ht_init 2 0) 5 7 0 (by decide)

/-- C2: from `init(2)` (4 buckets, threshold `FILLPCT` = 50), running any
batch of probes with pairwise-distinct nonzero hashes that triggers the
resize engine exactly once doubles the bucket count to 8, and every
probed hash is still retrievable with its original value afterwards. -/
theorem C2_growth (s0 : Nat) (ps : List (Nat × Nat × Nat))
    (hnz : ∀ p ∈ ps, p.1 ≠ 0)
    (hnd : (ps.map (fun p => p.1)).Nodup)
    (hsplit : (runOps (ht_init 2 s0) (probeOps ps)).splits = 1) :
    (runOps (ht_init 2 s0) (probeOps ps)).n = 8 ∧
    ∀ p ∈ ps, (ht_find (runOps (ht_init 2 s0) (probeOps ps)) p.1).1 = some p.2.1 := by
  have hInv := probe_run ps (ht_init 2 s0) [] (ht_init_inv 2 s0) hnz
    (by simpa using hnd)
  constructor
  · obtain ⟨k, h1, h2⟩ := runOps_splits_n (probeOps ps) (ht_init 2 s0)
    have hsp0 : (ht_init 2 s0).splits = 0 := rfl
    have hn0 : (ht_init 2 s0).n = 4 := rfl
    rw [hsp0] at h1
    rw [hn0] at h2
    have hk : k = 1 := by omega
    rw [h2, hk]
    norm_num
  · intro p hp
    have hnode : (⟨p.1, p.2.1⟩ : hn) ∈ (psNodes ps).reverse ++ ([] : List hn) := by
      rw [List.append_nil, List.mem_reverse]
      exact List.mem_map_of_mem _ hp
    have hfind := hInv.find_present ⟨p.1, p.2.1⟩ hnode
    have hh : (⟨p.1, p.2.1⟩ : hn).h = p.1 := rfl
    rw [hh] at hfind
    rw [hfind]

/-- C2 witness: the six probes of `ops6` cross the 50 % threshold once;
the table ends with 8 buckets and all six hashes findable. -/
theorem C2_witness :
    (runOps (ht_init 2 0) (probeOps ps6)).n = 8 ∧
    ∀ p ∈ ps6, (ht_find (runOps (ht_init 2 0) (probeOps ps6)) p.1).1 = some p.2.1 :=
  C2_growth 0 ps6 (by decide) (by decide) (by decide)

end FastHT
